import Mathlib

/-!
Verification development for the `ut1-rs` blocklist library.

The development shallowly embeds the two matcher variants of the crate:

* `Ut1.Multi` models `src/blocklist_multi.rs` — the multi-category engine
  (`Blocklist`, `normalize`, `normalize_url`, `normalize_domain`, `from_dir`,
  `detect_subdomains`, `detect`);
* `Ut1.Single` models `src/blocklist.rs` — the single-category blocklist
  (`Blocklist`, `with_folder`, `detect_domain`, `detect_url`).

The crate delegates URL parsing to the external `url` crate (a WHATWG URL
parser).  `Ut1.parseUrlChars` below is an executable model of that external
parser covering the behaviours the blocklist code exercises: scheme
recognition, special-scheme authority parsing with host/port/userinfo
splitting and ASCII lower-casing, opaque paths for non-special schemes
(e.g. `mailto:`), path/query/fragment splitting, and the crate's `Position`
based slicing used by `normalize_url` and `detect_url`.  The model is
restricted to ASCII inputs without IPv6 bracket hosts, percent-encoding or
IDNA, which is the fragment the repository's code and tests rely on.

Rust `HashMap`s with `Vec<String>` values are modelled as association lists
(`List (κ × List String)`) with first-match lookup (`lookupTags`), and the
`HashSet` of detected tags as a `Finset String`.  File-system contents
consumed by `from_dir` / `with_folder` are passed explicitly as an `FsDir`
value (directory flag plus the optional `domains` / `urls` line files of
each category subdirectory), which is the standard explicit-state rendering
of the I/O the Rust code performs.
-/

namespace Ut1

/-- Model of `url::ParseError` restricted to the two failure modes the
blocklist code can hit: no parsable scheme (`RelativeUrlWithoutBase`) and an
empty host for a special scheme (`EmptyHost`). -/
inductive ParseError
  | relativeUrlWithoutBase
  | emptyHost
deriving DecidableEq

/-- Model of `Ut1Error` from `src/error.rs`; `PathBuf` payloads are modelled
as path strings. -/
inductive Ut1Error
  | notADirectory (path : String)
  | blocklistNotFound (path : String)
  | malformedUrl (e : ParseError)
  | noHostname (url : String)
deriving DecidableEq

/-- Model of a parsed `url::Url` value: scheme, optional userinfo, host and
port, the path, and optional query and fragment.  Equality is structural,
matching the `Eq`/`Hash` instances the crate derives on parsed URLs. -/
structure Url where
  scheme : String
  userinfo : Option String
  host : Option String
  port : Option String
  path : String
  query : Option String
  fragment : Option String
deriving DecidableEq

/-- Serialized authority (`userinfo@host:port`) of a URL; empty when the URL
has no host. -/
def Url.authorityStr (u : Url) : String :=
  match u.host with
  | some h =>
    (match u.userinfo with
     | some ui => ui ++ "@"
     | none => "") ++ h ++
    (match u.port with
     | some p => ":" ++ p
     | none => "")
  | none => ""

/-- Slice `url[Position::BeforeScheme..Position::AfterPath]`: the scheme,
authority and path of the URL, with query and fragment dropped. -/
def Url.schemeHostPath (u : Url) : String :=
  u.scheme ++ ":" ++
    (match u.host with
     | some _ => "//" ++ u.authorityStr
     | none => "") ++ u.path

/-- Slice `url[Position::BeforeHost..Position::AfterPath]`: host, port and
path (userinfo excluded); for a URL without authority this collapses to the
opaque path, as in the crate's position arithmetic. -/
def Url.hostPath (u : Url) : String :=
  (match u.host with
   | some h => h ++
     (match u.port with
      | some p => ":" ++ p
      | none => "")
   | none => "") ++ u.path

/-- Full serialization of the URL (the model of `Url::to_string`). -/
def Url.toStr (u : Url) : String :=
  u.schemeHostPath ++
    (match u.query with
     | some q => "?" ++ q
     | none => "") ++
    (match u.fragment with
     | some f => "#" ++ f
     | none => "")

/-- Characters allowed in a URL scheme after its leading ASCII letter. -/
def isSchemeChar (c : Char) : Bool :=
  c.isAlphanum || c == '+' || c == '-' || c == '.'

/-- Schemes the WHATWG parser treats as special (authority-carrying). -/
def specialSchemes : List String :=
  ["http", "https", "ws", "wss", "ftp", "file"]

/-- Split the text that follows a URL path into its optional query and
fragment components. -/
def parseQF : List Char → Option String × Option String
  | '?' :: r =>
    (some (String.mk (r.takeWhile (fun c => c ≠ '#'))),
     match r.dropWhile (fun c => c ≠ '#') with
     | '#' :: f => some (String.mk f)
     | _ => none)
  | '#' :: r => (none, some (String.mk r))
  | _ => (none, none)

/-- Parse an authority-carrying remainder (everything after `scheme:` with
leading slashes already consumed): authority up to the first `/`, `?` or
`#`, userinfo before the last `@`, port after the first `:` of the host
part, then path, query and fragment.  Hosts are ASCII lower-cased; an empty
host is a parse error, as for the crate's special schemes. -/
def parseAuthority (scheme : String) (rest : List Char) : Except ParseError Url :=
  let auth := rest.takeWhile (fun c => ¬ (c = '/' ∨ c = '?' ∨ c = '#'))
  let rest1 := rest.dropWhile (fun c => ¬ (c = '/' ∨ c = '?' ∨ c = '#'))
  let hostport := if '@' ∈ auth then (auth.reverse.takeWhile (fun c => c ≠ '@')).reverse else auth
  let userinfo :=
    if '@' ∈ auth then some (String.mk (auth.take (auth.length - hostport.length - 1))) else none
  let hostC := hostport.takeWhile (fun c => c ≠ ':')
  let portC := hostport.dropWhile (fun c => c ≠ ':')
  let port :=
    match portC with
    | ':' :: p => some (String.mk p)
    | _ => none
  if hostC = [] then .error .emptyHost
  else
    let pathC := rest1.takeWhile (fun c => ¬ (c = '?' ∨ c = '#'))
    let path := if pathC = [] then "/" else String.mk pathC
    let qf := parseQF (rest1.dropWhile (fun c => ¬ (c = '?' ∨ c = '#')))
    .ok ⟨scheme, userinfo, some (String.mk (hostC.map Char.toLower)), port, path, qf.1, qf.2⟩

/-- Model of `url::Url::parse` on a character list.  The text before the
first `:` must be a well-formed scheme (leading ASCII letter, then scheme
characters); special schemes consume any run of slashes and parse an
authority, other schemes parse an authority only after `//` and otherwise
keep an opaque path, as for `mailto:` URLs. -/
def parseUrlChars (l : List Char) : Except ParseError Url :=
  let pre := l.takeWhile (fun c => c ≠ ':')
  match l.dropWhile (fun c => c ≠ ':') with
  | [] => .error .relativeUrlWithoutBase
  | _ :: rest =>
    if (match pre with
        | c :: _ => c.isAlpha && pre.all isSchemeChar
        | [] => false) then
      let scheme := String.mk (pre.map Char.toLower)
      if scheme ∈ specialSchemes then
        parseAuthority scheme (rest.dropWhile (fun c => c = '/' ∨ c = '\\'))
      else if rest.take 2 = ['/', '/'] then
        parseAuthority scheme (rest.drop 2)
      else
        let pathC := rest.takeWhile (fun c => ¬ (c = '?' ∨ c = '#'))
        let qf := parseQF (rest.dropWhile (fun c => ¬ (c = '?' ∨ c = '#')))
        .ok ⟨scheme, none, none, none, String.mk pathC, qf.1, qf.2⟩
    else .error .relativeUrlWithoutBase

/-- Model of `url::Url::parse` on a string. -/
def parseUrlStr (s : String) : Except ParseError Url :=
  parseUrlChars s.data

/-- First-match lookup in an association list, the model of `HashMap::get`
(real hash maps have unique keys, so first-match agrees with map lookup). -/
def lookupTags {κ : Type} [DecidableEq κ] (k : κ) : List (κ × List String) → Option (List String)
  | [] => none
  | (k', v) :: rest => if k = k' then some v else lookupTags k rest

/-- Insertion step of `from_dir`: `entry(k).and_modify(push tag).or_insert(vec![tag])`. -/
def insertTag {κ : Type} [DecidableEq κ] (m : List (κ × List String)) (k : κ) (tag : String) :
    List (κ × List String) :=
  if (lookupTags k m).isSome then
    m.map (fun kv => if kv.1 = k then (kv.1, kv.2 ++ [tag]) else kv)
  else
    m ++ [(k, [tag])]

/-- Contents of one category subdirectory of a ut1 blocklist tree: the
category name and the line lists of its `domains` and `urls` files (`none`
models a missing file). -/
structure CatListing where
  name : String
  domainsFile : Option (List String)
  urlsFile : Option (List String)

/-- Explicit model of an on-disk ut1 root directory, the state read by
`from_dir` and `with_folder`: its path, whether it is a directory, and its
category subdirectories in traversal order. -/
structure FsDir where
  path : String
  isDir : Bool
  cats : List CatListing

/-- Model of `std::io::Error` outcomes of `from_dir` (a failing `read_dir`). -/
inductive IoError
  | readDirFailed
deriving DecidableEq

end Ut1

namespace Ut1.Multi

/-- Multi-category blocklist of `src/blocklist_multi.rs`: a domain index and
a URL index, each mapping a key to the (possibly duplicated) list of
category names that listed it. -/
structure Blocklist where
  domains : List (String × List String)
  urls : List (Url × List String)
deriving DecidableEq

/-- Model of `Blocklist::new`. -/
def Blocklist.new (domains : List (String × List String)) (urls : List (Url × List String)) :
    Blocklist :=
  ⟨domains, urls⟩

/-- Model of `Blocklist::normalize`: parse the string as a URL and, on
failure, retry with `https://` prepended. -/
def normalize (url : String) : Except ParseError Url :=
  match parseUrlStr url with
  | .ok u => .ok u
  | .error _ => parseUrlStr ("https://" ++ url)

/-- Model of `Blocklist::normalize_url`: normalize, slice the result to
`BeforeScheme..AfterPath` and re-parse the slice. -/
def normalize_url (url : String) : Except Ut1Error Url :=
  match normalize url with
  | .error e => .error (.malformedUrl e)
  | .ok u =>
    match parseUrlStr u.schemeHostPath with
    | .ok u' => .ok u'
    | .error e => .error (.malformedUrl e)

/-- Model of `Blocklist::normalize_domain`: normalize and keep the host
string, failing with `NoHostname` when the URL has none. -/
def normalize_domain (url : String) : Except Ut1Error String :=
  match normalize url with
  | .error e => .error (.malformedUrl e)
  | .ok u =>
    match u.host with
    | some domain => .ok domain
    | none => .error (.noHostname u.toStr)

/-- Per-category accumulation step of `from_dir`: normalize each line of the
`domains` (resp. `urls`) file when present, silently skipping lines whose
normalization fails, and append the category name to each resulting key's
tag list. -/
def addCategory (acc : Blocklist) (cat : CatListing) : Blocklist :=
  let domains :=
    match cat.domainsFile with
    | some lines =>
      (lines.filterMap (fun url => (normalize_domain url).toOption)).foldl
        (fun m domain => insertTag m domain cat.name) acc.domains
    | none => acc.domains
  let urls :=
    match cat.urlsFile with
    | some lines =>
      (lines.filterMap (fun url => (normalize_url url).toOption)).foldl
        (fun m u => insertTag m u cat.name) acc.urls
    | none => acc.urls
  ⟨domains, urls⟩

/-- Model of `Blocklist::from_dir`: fail when the root cannot be read as a
directory, otherwise fold every category subdirectory into empty indices. -/
def from_dir (dir : FsDir) : Except IoError Blocklist :=
  if dir.isDir then
    .ok (dir.cats.foldl addCategory ⟨[], []⟩)
  else
    .error .readDirFailed

/-- Dot positions of `detect_subdomains`: the indices of `.` in the domain,
computed as in the source by enumerating and filtering the characters.  (The
source scans UTF-8 bytes; on the ASCII domain strings the parser model
produces, byte and character indexing coincide, and a slice starting right
after a `.` byte is always valid UTF-8, so the source's `from_utf8` guard
never rejects these slices.) -/
def dotPositions (chars : List Char) : List Nat :=
  (chars.enum.filter (fun ic => ic.2 = '.')).map Prod.fst

/-- Candidate suffixes tested by `detect_subdomains`: for every dot position
except the last (popped so the bare TLD is never tested), the characters one
past the dot. -/
def subSuffixes (chars : List Char) : List (List Char) :=
  (dotPositions chars).dropLast.map (fun pos => chars.drop (pos + 1))

/-- Model of `Blocklist::detect_subdomains`: look every candidate suffix up
in the domain index, flatten the tag lists of the matches into a set, and
return it unless empty. -/
def detect_subdomains (bl : Blocklist) (domain : String) : Option (Finset String) :=
  let categories : Finset String :=
    (((subSuffixes domain.data).filterMap
        (fun toTest => lookupTags (String.mk toTest) bl.domains)).flatten).toFinset
  if categories = ∅ then none else some categories

/-- Model of `Blocklist::detect`: try the normalized domain exactly and via
the subdomain search, try the normalized URL in the URL index, union all
tags found, and return the set unless it is empty. -/
def detect (bl : Blocklist) (url : String) : Option (Finset String) :=
  let domainDetections : Finset String :=
    match normalize_domain url with
    | .ok domain =>
      (match lookupTags domain bl.domains with
       | some tags => tags.toFinset
       | none => ∅) ∪
      (match detect_subdomains bl domain with
       | some tags => tags
       | none => ∅)
    | .error _ => ∅
  let urlDetections : Finset String :=
    match normalize_url url with
    | .ok u =>
      match lookupTags u bl.urls with
      | some tags => tags.toFinset
      | none => ∅
    | .error _ => ∅
  let detections := domainDetections ∪ urlDetections
  if detections = ∅ then none else some detections

end Ut1.Multi

namespace Ut1.Single

/-- Single-category blocklist of `src/blocklist.rs`: a kind (category name)
plus raw domain and URL string sets, modelled as lists queried by
membership. -/
structure Blocklist where
  kind : String
  domains : List String
  urls : List String
deriving DecidableEq

/-- Model of `Blocklist::with_folder`: fail with `NotADirectory` when the
folder is not a directory, then open `folder/kind/domains` and
`folder/kind/urls`, turning either failing open into `BlocklistNotFound`
for the `folder/kind` path; on success collect the raw lines of each
file. -/
def with_folder (kind : String) (folder : FsDir) : Except Ut1Error Blocklist :=
  if ¬ folder.isDir then .error (.notADirectory folder.path)
  else
    let filePath := folder.path ++ "/" ++ kind
    let cat := folder.cats.find? (fun c => c.name = kind)
    match cat.bind (fun c => c.domainsFile) with
    | none => .error (.blocklistNotFound filePath)
    | some domainLines =>
      match cat.bind (fun c => c.urlsFile) with
      | none => .error (.blocklistNotFound filePath)
      | some urlLines => .ok ⟨kind, domainLines, urlLines⟩

/-- Model of `Blocklist::detect_domain`: true when the URL has a host and
that host is in the domain set. -/
def detect_domain (bl : Blocklist) (url : Url) : Bool :=
  match url.host with
  | some domain => domain ∈ bl.domains
  | none => false

/-- Model of `Blocklist::detect_url`: strip the URL to
`BeforeHost..AfterPath` and test membership in the URL set. -/
def detect_url (bl : Blocklist) (url : Url) : Bool :=
  url.hostPath ∈ bl.urls

end Ut1.Single

namespace Ut1

/-- Refinement map of claim C7: the multi-category engine whose domain index
maps each member of the single-category blocklist's domain set to the
one-element tag list of its kind, and whose URL index maps the
normalization of each member of its URL set (members whose normalization
fails are skipped) to that same tag list. -/
def toMulti (bl : Single.Blocklist) : Multi.Blocklist :=
  ⟨bl.domains.map (fun d => (d, [bl.kind])),
   (bl.urls.filterMap (fun m => (Multi.normalize_url m).toOption)).map
     (fun v => (v, [bl.kind]))⟩

end Ut1

namespace Ut1.Multi

/-- Characterization of the dot positions: an index is collected exactly
when the character there is a dot. -/
theorem mem_dotPositions {l : List Char} {i : Nat} :
    i ∈ dotPositions l ↔ l[i]? = some '.' := by
  unfold dotPositions
  simp only [List.mem_map, List.mem_filter]
  constructor
  · rintro ⟨⟨j, c⟩, ⟨hmem, hc⟩, rfl⟩
    simp only [decide_eq_true_eq] at hc
    subst hc
    exact List.mk_mem_enum_iff_getElem?.mp hmem
  · intro h
    exact ⟨(i, '.'), ⟨List.mk_mem_enum_iff_getElem?.mpr h, by simp⟩, rfl⟩

/-- Dot positions are produced in strictly increasing order. -/
theorem dotPositions_pairwise (l : List Char) : (dotPositions l).Pairwise (· < ·) := by
  unfold dotPositions
  rw [List.pairwise_map]
  apply List.Pairwise.filter
  have h : (l.enum.map Prod.fst).Pairwise (· < ·) := by
    rw [List.enum_map_fst]
    exact List.pairwise_lt_range _
  rwa [List.pairwise_map] at h

/-- In a strictly increasing list, any element below some other element
survives `dropLast`. -/
theorem mem_dropLast_of_lt : ∀ {l : List Nat}, l.Pairwise (· < ·) → ∀ {i j : Nat},
    i ∈ l → j ∈ l → i < j → i ∈ l.dropLast
  | [], _, _, _, hi, _, _ => by simp at hi
  | [a], _, i, j, hi, hj, hij => by
    simp only [List.mem_singleton] at hi hj
    omega
  | a :: b :: rest, hs, i, j, hi, hj, hij => by
    rw [List.dropLast_cons₂]
    rcases List.mem_cons.mp hi with rfl | hi'
    · exact List.mem_cons_self _ _
    · rcases List.mem_cons.mp hj with rfl | hj'
      · have : j < i := (List.pairwise_cons.mp hs).1 i hi'
        omega
      · exact List.mem_cons_of_mem _
          (mem_dropLast_of_lt (List.pairwise_cons.mp hs).2 hi' hj' hij)

/-- In a strictly increasing list, every element of `dropLast` has a larger
element in the full list. -/
theorem exists_gt_of_mem_dropLast : ∀ {l : List Nat}, l.Pairwise (· < ·) → ∀ {i : Nat},
    i ∈ l.dropLast → ∃ j ∈ l, i < j
  | [], _, i, hi => by simp at hi
  | [a], _, i, hi => by simp at hi
  | a :: b :: rest, hs, i, hi => by
    rw [List.dropLast_cons₂] at hi
    rcases List.mem_cons.mp hi with rfl | hi'
    · exact ⟨b, List.mem_cons_of_mem _ (List.mem_cons_self _ _),
        (List.pairwise_cons.mp hs).1 b (List.mem_cons_self _ _)⟩
    · obtain ⟨j, hj, hij⟩ := exists_gt_of_mem_dropLast (List.pairwise_cons.mp hs).2 hi'
      exact ⟨j, List.mem_cons_of_mem _ hj, hij⟩

/-- Completeness of the candidate-suffix scan: any suffix preceded by a dot
that itself still contains a dot is among the tested suffixes. -/
theorem mem_subSuffixes_append {p s : List Char} (hdot : '.' ∈ s) :
    s ∈ subSuffixes (p ++ '.' :: s) := by
  have h1 : (p ++ '.' :: s)[p.length]? = some '.' := by
    rw [List.getElem?_append_right (le_refl _)]
    simp
  obtain ⟨k, hk⟩ := List.mem_iff_getElem?.mp hdot
  have h2 : (p ++ '.' :: s)[p.length + 1 + k]? = some '.' := by
    rw [List.getElem?_append_right (by omega)]
    have he : p.length + 1 + k - p.length = k + 1 := by omega
    rw [he, List.getElem?_cons_succ]
    exact hk
  have hdl : p.length ∈ (dotPositions (p ++ '.' :: s)).dropLast :=
    mem_dropLast_of_lt (dotPositions_pairwise _) (mem_dotPositions.mpr h1)
      (mem_dotPositions.mpr h2) (by omega)
  refine List.mem_map.mpr ⟨p.length, hdl, ?_⟩
  have h3 : (p ++ ['.']) ++ s = p ++ '.' :: s := by simp
  have h4 := List.drop_left (p ++ ['.']) s
  rw [h3] at h4
  simp only [List.length_append, List.length_singleton] at h4
  exact h4

/-- Soundness of the candidate-suffix scan: every tested suffix still
contains a dot (in particular it is never the bare top-level label). -/
theorem dot_mem_of_mem_subSuffixes {l s : List Char} (h : s ∈ subSuffixes l) : '.' ∈ s := by
  obtain ⟨i, hi, rfl⟩ := List.mem_map.mp h
  obtain ⟨j, hj, hij⟩ := exists_gt_of_mem_dropLast (dotPositions_pairwise l) hi
  have hdot := mem_dotPositions.mp hj
  have hg : (l.drop (i + 1))[j - (i + 1)]? = some '.' := by
    rw [List.getElem?_drop]
    have he : i + 1 + (j - (i + 1)) = j := by omega
    rw [he]
    exact hdot
  exact List.mem_iff_getElem?.mpr ⟨_, hg⟩

/-- Character data of the dot string. -/
theorem dot_data : (".").data = ['.'] := rfl

/-- String-level form of `mem_subSuffixes_append`. -/
theorem subSuffixes_of_string_append {p s : String} (hdot : '.' ∈ s.data) :
    s.data ∈ subSuffixes (p ++ "." ++ s).data := by
  have h : (p ++ "." ++ s).data = p.data ++ '.' :: s.data := by
    simp [String.data_append, dot_data]
  rw [h]
  exact mem_subSuffixes_append hdot

/-- Lower bound of `detect_subdomains`: a matching tested suffix contributes
all of its tags. -/
theorem detect_subdomains_superset {bl : Blocklist} {d s : String} {T : List String}
    (hs : s.data ∈ subSuffixes d.data) (hl : lookupTags s bl.domains = some T)
    (hT : T ≠ []) :
    ∃ C, detect_subdomains bl d = some C ∧ T.toFinset ⊆ C := by
  have hTmem : T ∈ (subSuffixes d.data).filterMap
      (fun toTest => lookupTags (String.mk toTest) bl.domains) :=
    List.mem_filterMap.mpr ⟨s.data, hs, by rw [show String.mk s.data = s from rfl]; exact hl⟩
  have hsub : T.toFinset ⊆ (((subSuffixes d.data).filterMap
      (fun toTest => lookupTags (String.mk toTest) bl.domains)).flatten).toFinset := by
    intro t ht
    rw [List.mem_toFinset] at ht ⊢
    exact List.mem_flatten.mpr ⟨T, hTmem, ht⟩
  obtain ⟨t, ht⟩ := List.exists_mem_of_ne_nil T hT
  have hne : (((subSuffixes d.data).filterMap
      (fun toTest => lookupTags (String.mk toTest) bl.domains)).flatten).toFinset ≠ ∅ :=
    Finset.ne_empty_of_mem (hsub (List.mem_toFinset.mpr ht))
  refine ⟨_, ?_, hsub⟩
  simp only [detect_subdomains]
  rw [if_neg hne]

/-- Packaging step of `detect`: when the middle (subdomain) component
already contains every tag of a non-empty list, the final result is `some`
of a superset. -/
theorem detect_pack_superset {A C B : Finset String} {T : List String}
    (hTC : T.toFinset ⊆ C) (hT : T ≠ []) :
    ∃ S, (if (A ∪ C) ∪ B = ∅ then (none : Option (Finset String)) else some ((A ∪ C) ∪ B)) =
        some S ∧ T.toFinset ⊆ S := by
  have hsub : T.toFinset ⊆ (A ∪ C) ∪ B :=
    subset_trans hTC (subset_trans Finset.subset_union_right Finset.subset_union_left)
  obtain ⟨t, ht⟩ := List.exists_mem_of_ne_nil T hT
  have hne : (A ∪ C) ∪ B ≠ ∅ := Finset.ne_empty_of_mem (hsub (List.mem_toFinset.mpr ht))
  exact ⟨_, by rw [if_neg hne], hsub⟩

/-- Core lower bound of `detect`: when the normalized domain has a tested
suffix that is an index key with a non-empty tag list, the detection result
is `some` superset of those tags. -/
theorem detect_superset_of_subSuffix {bl : Blocklist} {c d s : String} {T : List String}
    (h1 : normalize_domain c = .ok d) (hs : s.data ∈ subSuffixes d.data)
    (hl : lookupTags s bl.domains = some T) (hT : T ≠ []) :
    ∃ S, detect bl c = some S ∧ T.toFinset ⊆ S := by
  obtain ⟨C, hC, hTC⟩ := detect_subdomains_superset hs hl hT
  simp only [detect, h1, hC]
  exact detect_pack_superset hTC hT

/-- Totality shape of `detect`: every call returns either `none` or `some`
of a non-empty set. -/
theorem detect_none_or_nonempty (bl : Blocklist) (url : String) :
    detect bl url = none ∨ ∃ S, detect bl url = some S ∧ S ≠ ∅ := by
  simp only [detect]
  split
  · exact Or.inl rfl
  · next h => exact Or.inr ⟨_, rfl, h⟩

/-- First-match lookup on an association list whose values are all non-empty
only returns non-empty values. -/
theorem lookupTags_ne_nil {κ : Type} [DecidableEq κ] {m : List (κ × List String)}
    (hm : ∀ kv ∈ m, kv.2 ≠ []) {k : κ} {T : List String}
    (h : lookupTags k m = some T) : T ≠ [] := by
  induction m with
  | nil => simp [lookupTags] at h
  | cons kv rest ih =>
    obtain ⟨k', v⟩ := kv
    simp only [lookupTags] at h
    split at h
    · cases h
      exact hm (k', T) (List.mem_cons_self _ _)
    · exact ih (fun kv hkv => hm kv (List.mem_cons_of_mem _ hkv)) h

/-- `insertTag` preserves the all-values-non-empty invariant. -/
theorem insertTag_nonempty {κ : Type} [DecidableEq κ] {m : List (κ × List String)}
    (hm : ∀ kv ∈ m, kv.2 ≠ []) (k : κ) (tag : String) :
    ∀ kv ∈ insertTag m k tag, kv.2 ≠ [] := by
  intro kv hkv
  unfold insertTag at hkv
  split at hkv
  · obtain ⟨kv', hkv', rfl⟩ := List.mem_map.mp hkv
    by_cases h : kv'.1 = k
    · simp [h]
    · simp only [h, if_false]
      exact hm kv' hkv'
  · rcases List.mem_append.mp hkv with h | h
    · exact hm kv h
    · simp only [List.mem_singleton] at h
      subst h
      simp

/-- Folding `insertTag` over a key list preserves the invariant. -/
theorem foldl_insertTag_nonempty {κ : Type} [DecidableEq κ] (keys : List κ) (tag : String) :
    ∀ (m : List (κ × List String)), (∀ kv ∈ m, kv.2 ≠ []) →
      ∀ kv ∈ keys.foldl (fun m k => insertTag m k tag) m, kv.2 ≠ [] := by
  induction keys with
  | nil => intro m hm; exact hm
  | cons k rest ih =>
    intro m hm
    exact ih _ (insertTag_nonempty hm k tag)

/-- One `from_dir` category step preserves the invariant on both indices. -/
theorem addCategory_nonempty {acc : Blocklist} {cat : CatListing}
    (hd : ∀ kv ∈ acc.domains, kv.2 ≠ []) (hu : ∀ kv ∈ acc.urls, kv.2 ≠ []) :
    (∀ kv ∈ (addCategory acc cat).domains, kv.2 ≠ []) ∧
      (∀ kv ∈ (addCategory acc cat).urls, kv.2 ≠ []) := by
  unfold addCategory
  constructor
  · cases cat.domainsFile with
    | none => exact hd
    | some lines => exact foldl_insertTag_nonempty _ _ _ hd
  · cases cat.urlsFile with
    | none => exact hu
    | some lines => exact foldl_insertTag_nonempty _ _ _ hu

/-- Folding `addCategory` over any category list preserves the invariant. -/
theorem foldl_addCategory_nonempty : ∀ (cats : List CatListing) (acc : Blocklist),
    (∀ kv ∈ acc.domains, kv.2 ≠ []) → (∀ kv ∈ acc.urls, kv.2 ≠ []) →
      (∀ kv ∈ (cats.foldl addCategory acc).domains, kv.2 ≠ []) ∧
        (∀ kv ∈ (cats.foldl addCategory acc).urls, kv.2 ≠ [])
  | [], acc, hd, hu => ⟨hd, hu⟩
  | cat :: rest, acc, hd, hu => by
    obtain ⟨hd', hu'⟩ := @addCategory_nonempty acc cat hd hu
    exact foldl_addCategory_nonempty rest (addCategory acc cat) hd' hu'

/-- Every index built by `from_dir` has only non-empty tag lists. -/
theorem from_dir_nonempty {dir : FsDir} {E : Blocklist} (h : from_dir dir = .ok E) :
    (∀ kv ∈ E.domains, kv.2 ≠ []) ∧ (∀ kv ∈ E.urls, kv.2 ≠ []) := by
  unfold from_dir at h
  split at h
  · cases h
    exact foldl_addCategory_nonempty _ _ (by simp) (by simp)
  · cases h

/-- Detection against an index holding only an undotted key (such as a bare
top-level label) finds nothing for any candidate whose normalized domain
properly extends that key by at least one leading label, because every
tested ancestor suffix still contains a dot and the URL index is empty. -/
theorem detect_undotted_single_key_none {tld w c d : String} {T : List String}
    (htld : '.' ∉ tld.data) (h1 : normalize_domain c = .ok d)
    (hd : d = w ++ "." ++ tld) :
    detect ⟨[(tld, T)], []⟩ c = none := by
  have hdata : d.data = w.data ++ '.' :: tld.data := by
    rw [hd]
    simp [String.data_append, dot_data]
  have hne : d ≠ tld := by
    intro h
    have hlen : d.data.length = w.data.length + 1 + tld.data.length := by
      rw [hdata]
      simp
      omega
    rw [h] at hlen
    omega
  have hexact : lookupTags d ([(tld, T)] : List (String × List String)) = none := by
    simp [lookupTags, hne]
  have hsubs : (subSuffixes d.data).filterMap
      (fun toTest => lookupTags (String.mk toTest) ([(tld, T)] : List (String × List String)))
      = [] := by
    rw [List.filterMap_eq_nil_iff]
    intro x hx
    have hdot := dot_mem_of_mem_subSuffixes hx
    have hxne : String.mk x ≠ tld := by
      intro h
      apply htld
      rw [← h]
      exact hdot
    simp [lookupTags, hxne]
  have hsd : detect_subdomains ⟨[(tld, T)], []⟩ d = none := by
    simp only [detect_subdomains, hsubs]
    simp
  simp only [detect, h1, hexact, hsd]
  cases hnu : normalize_url c with
  | error e => simp
  | ok u => simp [lookupTags]

/-- Packaging step of `detect` keyed on the exact-domain component. -/
theorem detect_pack_mem_left {A X Y : Finset String} {k : String} (hk : k ∈ A) :
    ∃ S, (if (A ∪ X) ∪ Y = ∅ then (none : Option (Finset String)) else some ((A ∪ X) ∪ Y)) =
        some S ∧ k ∈ S := by
  have hmem : k ∈ (A ∪ X) ∪ Y := Finset.mem_union_left _ (Finset.mem_union_left _ hk)
  exact ⟨_, by rw [if_neg (Finset.ne_empty_of_mem hmem)], hmem⟩

/-- Packaging step of `detect` keyed on the URL-index component. -/
theorem detect_pack_mem_right {D B : Finset String} {k : String} (hk : k ∈ B) :
    ∃ S, (if D ∪ B = ∅ then (none : Option (Finset String)) else some (D ∪ B)) =
        some S ∧ k ∈ S := by
  have hmem : k ∈ D ∪ B := Finset.mem_union_right _ hk
  exact ⟨_, by rw [if_neg (Finset.ne_empty_of_mem hmem)], hmem⟩

end Ut1.Multi

namespace Ut1

/-- Lookup in an index whose entries all carry the same tag list finds that
tag list at any present key. -/
theorem lookupTags_map_const {κ : Type} [DecidableEq κ] {l : List κ} {a : κ}
    (h : a ∈ l) (t : List String) :
    lookupTags a (l.map (fun d => (d, t))) = some t := by
  induction l with
  | nil => simp at h
  | cons b rest ih =>
    simp only [List.map_cons, lookupTags]
    by_cases hab : a = b
    · simp [hab]
    · rcases List.mem_cons.mp h with rfl | h'
      · exact absurd rfl hab
      · simp only [hab, if_false]
        exact ih h'

end Ut1

namespace Ut1.Multi

/-- C1: for every engine and candidate whose normalized domain `d` has a
strict ancestor suffix `s` (one or more leading labels stripped, `s` still
containing a dot so it is not the bare top-level label) that is a key of
the domain index with (non-empty, per the data-model invariant) tag
collection `T`, `detect` returns `some` set that is a superset of `T`; the
suffix contributes regardless of which other ancestor levels also match. -/
theorem claim_ancestor_suffix_tags_superset
    (doms : List (String × List String)) (urlsIdx : List (Url × List String))
    (c d p s : String) (T : List String)
    (h1 : normalize_domain c = .ok d) (hd : d = p ++ "." ++ s)
    (hdot : '.' ∈ s.data) (hl : lookupTags s doms = some T) (hT : T ≠ []) :
    ∃ S, detect ⟨doms, urlsIdx⟩ c = some S ∧ T.toFinset ⊆ S := by
  subst hd
  exact detect_superset_of_subSuffix h1 (subSuffixes_of_string_append hdot) hl hT

/-- Witness for C1 at the `blogspot.com` fixture of the repository's own
test. -/
theorem claim_ancestor_suffix_tags_superset_witness :
    ∃ S, detect ⟨[("blogspot.com", ["blog"])], []⟩ "https://ujj.blogspot.com/things" = some S ∧
      (["blog"] : List String).toFinset ⊆ S :=
  claim_ancestor_suffix_tags_superset [("blogspot.com", ["blog"])] []
    "https://ujj.blogspot.com/things" "ujj.blogspot.com" "ujj" "blogspot.com" ["blog"]
    rfl (by decide) (by decide) (by decide) (by decide)

/-- C2: the bare top-level label is never used as a lookup key by the
ancestor-suffix search: against an engine whose domain index holds exactly
the undotted key `tld` and whose URL index is empty, any candidate whose
normalized domain extends `tld` by at least one leading label detects
nothing at all, so the tags of `tld` are not included. -/
theorem claim_bare_tld_never_matches (tld w c d : String) (T : List String)
    (htld : '.' ∉ tld.data) (h1 : normalize_domain c = .ok d)
    (hd : d = w ++ "." ++ tld) :
    detect ⟨[(tld, T)], []⟩ c = none :=
  detect_undotted_single_key_none htld h1 hd

/-- Witness for C2: a block registered on the bare label `com` does not
match `example.com`. -/
theorem claim_bare_tld_never_matches_witness :
    detect ⟨[("com", ["x"])], []⟩ "https://example.com" = none :=
  claim_bare_tld_never_matches "com" "example" "https://example.com" "example.com" ["x"]
    (by decide) rfl (by decide)

/-- C3: end-to-end subdomain scenario of the repository's test: with domain
index `{blogspot.com ↦ [blog], adultblog.blogspot.com ↦ [adult]}` and an
empty URL index, a subdomain of `blogspot.com` detects `{blog}`, the listed
`adultblog.blogspot.com` detects `{blog, adult}` (tags from every matching
ancestor level), and `logspot.com` detects nothing. -/
theorem claim_subdomain_scenario :
    detect ⟨[("blogspot.com", ["blog"]), ("adultblog.blogspot.com", ["adult"])], []⟩
        "https://ujj.blogspot.com/things" = some {"blog"} ∧
    detect ⟨[("blogspot.com", ["blog"]), ("adultblog.blogspot.com", ["adult"])], []⟩
        "https://adultblog.blogspot.com/index.html" = some {"blog", "adult"} ∧
    detect ⟨[("blogspot.com", ["blog"]), ("adultblog.blogspot.com", ["adult"])], []⟩
        "https://logspot.com/index.html" = none := by
  refine ⟨rfl, ?_, rfl⟩
  have h : ({"blog", "adult"} : Finset String) = {"adult", "blog"} := by
    ext x
    simp [or_comm]
  rw [h]
  rfl

/-- C4: `detect` is total and only returns `none` or a non-empty set; a
candidate whose domain normalization fails with `NoHostname` (such as
`mailto:foo@bar.baz`) still reaches the URL-index lookup, returning `none`
against an engine with no matching URL entry and the URL entry's tags when
one matches. -/
theorem claim_detect_total_and_mailto :
    (∀ (bl : Blocklist) (url : String),
      detect bl url = none ∨ ∃ S, detect bl url = some S ∧ S ≠ ∅) ∧
    normalize_domain "mailto:foo@bar.baz" =
      .error (.noHostname "mailto:foo@bar.baz") ∧
    detect ⟨[], []⟩ "mailto:foo@bar.baz" = none ∧
    detect ⟨[], [(⟨"mailto", none, none, none, "foo@bar.baz", none, none⟩, ["t"])]⟩
        "mailto:foo@bar.baz" = some {"t"} :=
  ⟨detect_none_or_nonempty, rfl, rfl, rfl⟩

/-- C5: a candidate present in the domain index and (after normalization)
in the URL index under the same tag detects the duplicate-free singleton of
that tag: both contributions are unioned into one set. -/
theorem claim_domain_url_merge :
    normalize_url "foo.bar/baz" =
      .ok ⟨"https", none, some "foo.bar", none, "/baz", none, none⟩ ∧
    detect ⟨[("foo.bar", ["adult"])],
            [(⟨"https", none, some "foo.bar", none, "/baz", none, none⟩, ["adult"])]⟩
        "https://foo.bar/baz" = some {"adult"} :=
  ⟨rfl, rfl⟩

/-- C6: normalization ignores a missing scheme and query/fragment
components: `example.com/path?x=1#y` and `https://example.com/path` yield
the same URL-index key, and `example.com` normalizes to the same domain key
as `https://example.com`. -/
theorem claim_normalization_insensitive :
    normalize_url "example.com/path?x=1#y" = normalize_url "https://example.com/path" ∧
    normalize_domain "example.com" = .ok "example.com" ∧
    normalize_domain "example.com" = normalize_domain "https://example.com" :=
  ⟨rfl, rfl, rfl⟩

/-- C8: after `from_dir`, every key of either index carries a non-empty tag
collection; each listing appends the category name to the key's backing
list (same-category duplicate listings are retained at build time, as the
concrete double listing of `a.b` under category `c` shows), and
deduplication happens only at query time, where `detect` assembles a set. -/
theorem claim_build_invariants :
    (∀ (dir : FsDir) (E : Blocklist) (k : String) (T : List String),
      from_dir dir = .ok E → lookupTags k E.domains = some T → T ≠ []) ∧
    (∀ (dir : FsDir) (E : Blocklist) (u : Url) (T : List String),
      from_dir dir = .ok E → lookupTags u E.urls = some T → T ≠ []) ∧
    from_dir ⟨"root", true, [⟨"c", some ["a.b", "a.b"], none⟩]⟩ =
      .ok ⟨[("a.b", ["c", "c"])], []⟩ ∧
    detect ⟨[("a.b", ["c", "c"])], []⟩ "https://a.b" = some {"c"} :=
  ⟨fun _ _ _ _ h hl => lookupTags_ne_nil (from_dir_nonempty h).1 hl,
   fun _ _ _ _ h hl => lookupTags_ne_nil (from_dir_nonempty h).2 hl,
   rfl, rfl⟩

/-- Witness for C8: the invariant parts applied to the concretely built
duplicate-listing engine. -/
theorem claim_build_invariants_witness : (["c", "c"] : List String) ≠ [] :=
  claim_build_invariants.1 ⟨"root", true, [⟨"c", some ["a.b", "a.b"], none⟩]⟩
    ⟨[("a.b", ["c", "c"])], []⟩ "a.b" ["c", "c"] rfl rfl

/-- C10: dotted IP-literal hosts participate in the ancestor-suffix search:
for a candidate normalizing to host `127.0.0.1`, the dot-delimited suffixes
`0.0.1` and `0.1` are looked up in the domain index and their tags are
included when present, as both the general statements and the concrete
two-key engine show. -/
theorem claim_ip_suffix_participates :
    (∀ (doms : List (String × List String)) (urlsIdx : List (Url × List String))
       (c : String) (T : List String),
      normalize_domain c = .ok "127.0.0.1" → lookupTags "0.0.1" doms = some T → T ≠ [] →
      ∃ S, detect ⟨doms, urlsIdx⟩ c = some S ∧ T.toFinset ⊆ S) ∧
    (∀ (doms : List (String × List String)) (urlsIdx : List (Url × List String))
       (c : String) (T : List String),
      normalize_domain c = .ok "127.0.0.1" → lookupTags "0.1" doms = some T → T ≠ [] →
      ∃ S, detect ⟨doms, urlsIdx⟩ c = some S ∧ T.toFinset ⊆ S) ∧
    detect ⟨[("0.0.1", ["a"]), ("0.1", ["b"])], []⟩ "https://127.0.0.1" = some {"a", "b"} :=
  ⟨fun _ _ _ _ h1 hl hT => detect_superset_of_subSuffix h1 (by decide) hl hT,
   fun _ _ _ _ h1 hl hT => detect_superset_of_subSuffix h1 (by decide) hl hT,
   rfl⟩

/-- Witness for C10: the general parts instantiated at the concrete IP
candidate and a single-key index for each suffix. -/
theorem claim_ip_suffix_participates_witness :
    (∃ S, detect ⟨[("0.0.1", ["a"])], []⟩ "https://127.0.0.1" = some S ∧
        (["a"] : List String).toFinset ⊆ S) ∧
    (∃ S, detect ⟨[("0.1", ["b"])], []⟩ "https://127.0.0.1" = some S ∧
        (["b"] : List String).toFinset ⊆ S) :=
  ⟨claim_ip_suffix_participates.1 [("0.0.1", ["a"])] [] "https://127.0.0.1" ["a"]
      rfl (by decide) (by decide),
   claim_ip_suffix_participates.2.1 [("0.1", ["b"])] [] "https://127.0.0.1" ["b"]
      rfl (by decide) (by decide)⟩

end Ut1.Multi

namespace Ut1

/-- C9: the single-category `with_folder` fails with `BlocklistNotFound`
when either the `domains` or the `urls` file is missing under
`folder/kind`, while the multi-category `from_dir` silently skips a missing
file: a category directory with only a `domains` file still builds, with an
empty URL index. -/
theorem claim_with_folder_requires_both_files :
    (∀ (folder : FsDir) (kind : String),
      folder.isDir = true →
      ((folder.cats.find? (fun cat => cat.name = kind)).bind (fun cat => cat.domainsFile) = none ∨
       (folder.cats.find? (fun cat => cat.name = kind)).bind (fun cat => cat.urlsFile) = none) →
      Single.with_folder kind folder =
        .error (.blocklistNotFound (folder.path ++ "/" ++ kind))) ∧
    (∀ (path name : String) (lines : List String),
      ∃ E, Multi.from_dir ⟨path, true, [⟨name, some lines, none⟩]⟩ = .ok E ∧ E.urls = []) := by
  constructor
  · intro folder kind hdir hmiss
    rcases hmiss with h | h
    · simp only [Single.with_folder, hdir, h]
      simp
    · cases hd : (folder.cats.find? (fun cat => cat.name = kind)).bind
        (fun cat => cat.domainsFile) with
      | none =>
        simp only [Single.with_folder, hdir, hd]
        simp
      | some domainLines =>
        simp only [Single.with_folder, hdir, hd, h]
        simp
  · intro path name lines
    exact ⟨_, rfl, rfl⟩

/-- Witness for C9: a category directory with a `domains` file but no
`urls` file makes `with_folder` fail. -/
theorem claim_with_folder_requires_both_files_witness :
    Single.with_folder "adult" ⟨"bl", true, [⟨"adult", some ["foo.bar"], none⟩]⟩ =
      .error (.blocklistNotFound "bl/adult") :=
  claim_with_folder_requires_both_files.1
    ⟨"bl", true, [⟨"adult", some ["foo.bar"], none⟩]⟩ "adult" rfl (Or.inr rfl)

/-- C7 fails as stated: an `http`-scheme candidate satisfies the
single-category `detect_url` (whose comparison key drops the scheme), but
the multi-category engine keys its URL index on the `https`-prefixed
normalization of the stored member, so `detect` returns `none` rather than
a set containing the kind. -/
theorem claim_single_multi_counterexample :
    Single.detect_url ⟨"adult", [], ["foo.bar/baz"]⟩
        ⟨"http", none, some "foo.bar", none, "/baz", none, none⟩ = true ∧
    parseUrlStr "http://foo.bar/baz" =
      .ok ⟨"http", none, some "foo.bar", none, "/baz", none, none⟩ ∧
    Multi.detect (toMulti ⟨"adult", [], ["foo.bar/baz"]⟩) "http://foo.bar/baz" = none :=
  ⟨rfl, rfl, rfl⟩

/-- C7 (amended): the multi-category matcher generalizes the single-category
one for every candidate that parses as a URL: a `detect_domain` hit always
yields a multi-category `some` set containing the kind; a `detect_url` hit
yields one provided the candidate's normalized URL key coincides with the
normalization of the matched url-list member (true e.g. for https-scheme
candidates without port or userinfo; false for the `http` counterexample
input). -/
theorem claim_single_multi_refinement_amended :
    ∀ (bl : Single.Blocklist) (c : String) (u : Url),
      parseUrlStr c = .ok u →
      ((Single.detect_domain bl u = true →
          ∃ S, Multi.detect (toMulti bl) c = some S ∧ bl.kind ∈ S) ∧
       (Single.detect_url bl u = true →
          ∀ v : Url, Multi.normalize_url c = .ok v →
            Multi.normalize_url u.hostPath = .ok v →
            ∃ S, Multi.detect (toMulti bl) c = some S ∧ bl.kind ∈ S)) := by
  intro bl c u hparse
  have hn : Multi.normalize c = .ok u := by
    unfold Multi.normalize
    rw [hparse]
  constructor
  · intro hdd
    cases hh : u.host with
    | none =>
      simp only [Single.detect_domain, hh] at hdd
      exact absurd hdd (by simp)
    | some h =>
      have hmem : h ∈ bl.domains := by
        simp only [Single.detect_domain, hh] at hdd
        exact of_decide_eq_true hdd
      have hnd : Multi.normalize_domain c = .ok h := by
        simp only [Multi.normalize_domain, hn, hh]
      have hlook : lookupTags h (toMulti bl).domains = some [bl.kind] := by
        rw [show (toMulti bl).domains = bl.domains.map (fun d => (d, [bl.kind])) from rfl]
        exact lookupTags_map_const hmem _
      simp only [Multi.detect, hnd, hlook]
      exact Multi.detect_pack_mem_left (by simp)
  · intro hdu v hnuc hnum
    have hmem : u.hostPath ∈ bl.urls := by
      simp only [Single.detect_url] at hdu
      exact of_decide_eq_true hdu
    have hkey : v ∈ bl.urls.filterMap (fun m => (Multi.normalize_url m).toOption) :=
      List.mem_filterMap.mpr ⟨u.hostPath, hmem, by rw [hnum]; rfl⟩
    have hlook : lookupTags v (toMulti bl).urls = some [bl.kind] := by
      rw [show (toMulti bl).urls =
          (bl.urls.filterMap (fun m => (Multi.normalize_url m).toOption)).map
            (fun d => (d, [bl.kind])) from rfl]
      exact lookupTags_map_const hkey _
    simp only [Multi.detect, hnuc, hlook]
    exact Multi.detect_pack_mem_right (by simp)

/-- Witness for the amended C7: the `foo.bar` fixture of the repository's
single-category tests, queried as an https URL, through the domain branch
and through the URL branch. -/
theorem claim_single_multi_refinement_amended_witness :
    (∃ S, Multi.detect (toMulti ⟨"adult", ["foo.bar"], []⟩) "https://foo.bar/baz" = some S ∧
        "adult" ∈ S) ∧
    (∃ S, Multi.detect (toMulti ⟨"adult", [], ["foo.bar/baz"]⟩) "https://foo.bar/baz" = some S ∧
        "adult" ∈ S) :=
  ⟨(claim_single_multi_refinement_amended ⟨"adult", ["foo.bar"], []⟩ "https://foo.bar/baz"
      ⟨"https", none, some "foo.bar", none, "/baz", none, none⟩ rfl).1 rfl,
   (claim_single_multi_refinement_amended ⟨"adult", [], ["foo.bar/baz"]⟩ "https://foo.bar/baz"
      ⟨"https", none, some "foo.bar", none, "/baz", none, none⟩ rfl).2 rfl
      ⟨"https", none, some "foo.bar", none, "/baz", none, none⟩ rfl rfl⟩

end Ut1
